import Mathlib

/-!
# libmodbus data codec (`src/modbus-data.c`)

A shallow embedding of the conversion functions of `modbus-data.c` and the
properties of them that the specification states.

Conventions of the embedding.

* Machine integers are natural numbers; every conversion to a fixed width is an
  explicit reduction modulo `2 ^ w` (`u8`, `u16`, `u32`, `u64`).
* A `float` or `double` is represented by its IEEE-754 bit pattern, a natural
  number below `2 ^ 32` or `2 ^ 64`: the C code only ever moves the bits with
  `memcpy` and performs no floating point arithmetic.
* A C array reached through a pointer (`uint8_t *dest`, `const uint16_t *src`, ...)
  is a `Buffer`: the cells at offsets `0, 1, 2, ...` from the pointer.  Reading a
  cell of an `uint8_t`/`uint16_t` array yields a value of that width (`load8`,
  `load16`).
* An `int index` argument is represented by a natural number: the functions are
  only meaningful for `0 ≤ index ≤ INT_MAX`, and the theorems that depend on the
  range say `index < 2 ^ 31`, or `index + 8 ≤ 2 ^ 31` where an `int` sum
  `index+i` with `i < 8` must not exceed `INT_MAX`.  Where the source adds two `int` (`index+i` in
  `modbus_set_bits_from_byte`) the sum is converted with `i32`, which wraps around
  beyond `INT_MAX`; where it adds an `int` and an `unsigned int` the sum is taken
  modulo `2 ^ 32` with `u32`.
* A `for (i = a; i < b; i++)` loop whose body does not assign `i` runs `b - a`
  times (truncated subtraction) with `i = a, a + 1, ...`; each loop is a recursive
  function on the number of iterations still to run, carrying the loop variables.
-/

namespace Modbus

/-! ## Machine integers and buffers -/

/-- Conversion to `uint8_t`. -/
def u8 (x : Nat) : Nat := x % 2 ^ 8

/-- Conversion to `uint16_t`. -/
def u16 (x : Nat) : Nat := x % 2 ^ 16

/-- Conversion to `uint32_t` (also `unsigned int`). -/
def u32 (x : Nat) : Nat := x % 2 ^ 32

/-- Conversion to `uint64_t`. -/
def u64 (x : Nat) : Nat := x % 2 ^ 64

/-- The cells of a C array, by offset from the pointer. -/
abbrev Buffer := Nat → Nat

/-- The assignment `buf[a] = v`. -/
def store (buf : Buffer) (a v : Nat) : Buffer := fun j => if j = a then v else buf j

/-- Conversion to `int`: 32 bits, signed, wrapping around.  A sum of two `int` that
exceeds `INT_MAX` is taken this way, as the unoptimised build does: it comes out
negative. -/
def i32 (x : Nat) : Int := if u32 x < 2 ^ 31 then (u32 x : Int) else (u32 x : Int) - 2 ^ 32

/-- The assignment `buf[off] = v` with an `int` offset.  A `Buffer` holds the cells
at the offsets `0, 1, 2, ...`; a store at a negative offset lands before them and
leaves all of them as they are. -/
def storeAt (buf : Buffer) (off : Int) (v : Nat) : Buffer :=
  match off with
  | Int.ofNat a => store buf a v
  | Int.negSucc _ => buf

/-- Reading `buf[a]` from an `uint8_t` array. -/
def load8 (buf : Buffer) (a : Nat) : Nat := u8 (buf a)

/-- Reading `buf[a]` from an `uint16_t` array (`memcpy(&v, buf + a, sizeof(uint16_t))`). -/
def load16 (buf : Buffer) (a : Nat) : Nat := u16 (buf a)

/-! ## Byte swapping -/

/-- The function `static inline uint16_t bswap_16(uint16_t x)`:
`return (x >> 8) | (x << 8);`. -/
def bswap_16 (x : Nat) : Nat :=
  let x := u16 x
  u16 ((x >>> 8) ||| (x <<< 8))

/-- The function `static inline uint32_t bswap_32(uint32_t x)`:
`return (bswap_16(x & 0xffff) << 16) | (bswap_16(x >> 16));`.
With GCC the name is bound to `__builtin_bswap32`, which computes the same
reversal of the four bytes. -/
def bswap_32 (x : Nat) : Nat :=
  let x := u32 x
  u32 ((bswap_16 (x &&& 0xffff) <<< 16) ||| bswap_16 (x >>> 16))

/-- Modelled from the spec: `bswap_64` is not defined in `modbus-data.c` (it comes
from `<byteswap.h>` or is `__builtin_bswap64`); the specification describes it as
the byte reversal at 64-bit width, built from shifts and masks.  It is written
here the way the source writes `bswap_32`, one width up. -/
def bswap_64 (x : Nat) : Nat :=
  let x := u64 x
  u64 ((bswap_32 (x &&& 0xffffffff) <<< 32) ||| bswap_32 (x >>> 32))

/-! ## Bit arrays -/

/-- The loop of `modbus_set_bits_from_byte`:
`for (i=0; i < 8; i++) dest[index+i] = (value & (1 << i)) ? 1 : 0;`
with `n` iterations still to run.  Both `index` and `i` are `int`, so the offset
`index+i` is an `int` sum: beyond `INT_MAX` it wraps around to a negative offset. -/
def modbus_set_bits_from_byte_loop (index value : Nat) : Nat → Nat → Buffer → Buffer
  | 0, _, dest => dest
  | n + 1, i, dest =>
    modbus_set_bits_from_byte_loop index value n (i + 1)
      (storeAt dest (i32 (index + i)) (if value &&& (1 <<< i) ≠ 0 then 1 else 0))

/-- The function `void modbus_set_bits_from_byte(uint8_t *dest, int index,
const uint8_t value)`; the result is the destination array after the call. -/
def modbus_set_bits_from_byte (dest : Buffer) (index value : Nat) : Buffer :=
  let value := u8 value
  modbus_set_bits_from_byte_loop index value 8 0 dest

/-- The loop of `modbus_set_bits_from_bytes`, with `n` iterations still to run:
```
dest[i] = tab_byte[(i - index) / 8] & (1 << shift) ? 1 : 0;
shift++;
shift %= 8;
```
Here `i` is an `unsigned int` with `index ≤ i < index + nb_bits` (the bound taken
modulo `2 ^ 32`), so neither `i - index` nor `i++` wraps around. -/
def modbus_set_bits_from_bytes_loop (index : Nat) (tab_byte : Buffer) :
    Nat → Nat → Nat → Buffer → Buffer
  | 0, _, _, dest => dest
  | n + 1, i, shift, dest =>
    modbus_set_bits_from_bytes_loop index tab_byte n (i + 1) ((shift + 1) % 8)
      (store dest i
        (if load8 tab_byte ((i - index) / 8) &&& (1 <<< shift) ≠ 0 then 1 else 0))

/-- The function `void modbus_set_bits_from_bytes(uint8_t *dest, int index,
unsigned int nb_bits, const uint8_t *tab_byte)`.  The loop is
`for (i = index; i < index + nb_bits; i++)` in `unsigned int` arithmetic: the
bound is `(index + nb_bits) mod 2 ^ 32`. -/
def modbus_set_bits_from_bytes (dest : Buffer) (index nb_bits : Nat) (tab_byte : Buffer) :
    Buffer :=
  let nb_bits := u32 nb_bits
  modbus_set_bits_from_bytes_loop index tab_byte (u32 (index + nb_bits) - index) index 0 dest

/-- The loop of `modbus_get_byte_from_bits`:
`for (i=0; i < nb_bits; i++) value |= (src[index+i] << i);`
with `n` iterations still to run.  The sum `index+i` is made in `unsigned int`,
and `value` is an `uint8_t`. -/
def modbus_get_byte_from_bits_loop (src : Buffer) (index : Nat) : Nat → Nat → Nat → Nat
  | 0, _, value => value
  | n + 1, i, value =>
    modbus_get_byte_from_bits_loop src index n (i + 1)
      (u8 (value ||| (load8 src (u32 (index + i)) <<< i)))

/-- The function `uint8_t modbus_get_byte_from_bits(const uint8_t *src, int index,
unsigned int nb_bits)`.  `NDEBUG` tells whether `assert` is compiled out; a failed
assertion aborts the program, which is the result `none`.
```
if (nb_bits > 8) {
    assert(nb_bits < 8);
    nb_bits = 8;
}
``` -/
def modbus_get_byte_from_bits (NDEBUG : Bool) (src : Buffer) (index nb_bits : Nat) :
    Option Nat :=
  let nb_bits := u32 nb_bits
  if nb_bits > 8 then
    if NDEBUG || decide (nb_bits < 8) then
      some (modbus_get_byte_from_bits_loop src index 8 0 0)
    else
      none
  else
    some (modbus_get_byte_from_bits_loop src index nb_bits 0 0)

/-! ## Floats -/

/-- The function `float modbus_get_float(const uint16_t *src)`:
`i = (((uint32_t)left) << 16) + right;` with `left = src[1]`, `right = src[0]`. -/
def modbus_get_float (src : Buffer) : Nat :=
  let left := load16 src 1
  let right := load16 src 0
  let i := u32 (u32 (left <<< 16) + right)
  i

/-- The function `float modbus_get_float_dcba(const uint16_t *src)`: as
`modbus_get_float`, followed by `i = bswap_32(i);`. -/
def modbus_get_float_dcba (src : Buffer) : Nat :=
  let left := load16 src 1
  let right := load16 src 0
  let i := u32 (u32 (left <<< 16) + right)
  let i := bswap_32 i
  i

/-- The function `void modbus_set_float(float f, uint16_t *dest)`:
`first = (uint16_t)i; second = (uint16_t)(i >> 16);` stored in `dest[0]`, `dest[1]`. -/
def modbus_set_float (f : Nat) (dest : Buffer) : Buffer :=
  let i := u32 f
  let first := u16 i
  let second := u16 (i >>> 16)
  store (store dest 0 first) 1 second

/-- The function `void modbus_set_float_dcba(float f, uint16_t *dest)`: as
`modbus_set_float`, after `i = bswap_32(i);`. -/
def modbus_set_float_dcba (f : Nat) (dest : Buffer) : Buffer :=
  let i := u32 f
  let i := bswap_32 i
  let first := u16 i
  let second := u16 (i >>> 16)
  store (store dest 0 first) 1 second

/-! ## Doubles -/

/-- The function `double modbus_get_double(const uint16_t *src)`:
`i = (((uint64_t)v1) << 48) + (((uint64_t)v2) << 32) + (((uint64_t)v3) << 16) + v4;`
with `v1 = src[3]`, `v2 = src[2]`, `v3 = src[1]`, `v4 = src[0]`. -/
def modbus_get_double (src : Buffer) : Nat :=
  let v1 := load16 src 3
  let v2 := load16 src 2
  let v3 := load16 src 1
  let v4 := load16 src 0
  let i := u64 (u64 (u64 (u64 (v1 <<< 48) + u64 (v2 <<< 32)) + u64 (v3 <<< 16)) + v4)
  i

/-- The local `uint32_t i` of `modbus_get_double_dcba` after
`i = bswap_64(((uint64_t)v1) << 48) + (((uint64_t)v2) << 32) + (((uint64_t)v3) << 16) + v4;`
the sum is made at 64 bits and converted to `uint32_t` by the assignment. -/
def modbus_get_double_dcba_i (src : Buffer) : Nat :=
  let v1 := load16 src 3
  let v2 := load16 src 2
  let v3 := load16 src 1
  let v4 := load16 src 0
  u32 (u64 (u64 (u64 (bswap_64 (u64 (v1 <<< 48)) + u64 (v2 <<< 32)) + u64 (v3 <<< 16)) + v4))

/-- The function `double modbus_get_double_dcba(const uint16_t *src)`.  The final
`memcpy(&f, &i, sizeof(double))` copies eight bytes out of the four-byte `i`: the
low half of the result is `i` and the high half is whatever follows `i` in memory,
the argument `adjacent` (byte order of a little-endian host). -/
def modbus_get_double_dcba (src : Buffer) (adjacent : Nat) : Nat :=
  let i := modbus_get_double_dcba_i src
  u32 adjacent * 2 ^ 32 + i

/-- The function `void modbus_set_double(double f, uint16_t *dest)`:
`v1 = (uint16_t)i; v2 = (uint16_t)(i >> 16); v3 = (uint16_t)(i >> 32);
v4 = (uint16_t)(i >> 48);` stored in `dest[0..3]`. -/
def modbus_set_double (f : Nat) (dest : Buffer) : Buffer :=
  let i := u64 f
  let v1 := u16 i
  let v2 := u16 (i >>> 16)
  let v3 := u16 (i >>> 32)
  let v4 := u16 (i >>> 48)
  store (store (store (store dest 0 v1) 1 v2) 2 v3) 3 v4

/-- The function `void modbus_set_double_dcba(double f, uint16_t *dest)`: after
`i = bswap_64(i);`,
`v1 = (uint16_t)i & 0xFF; v2 = (uint16_t)(i >> 16) & 0xFF;
v3 = (uint16_t)(i >> 32) & 0xFF; v4 = (uint16_t)(i >> 48) & 0xFF;`
stored in `dest[0..3]`. -/
def modbus_set_double_dcba (f : Nat) (dest : Buffer) : Buffer :=
  let i := u64 f
  let i := bswap_64 i
  let v1 := u16 i &&& 0xFF
  let v2 := u16 (i >>> 16) &&& 0xFF
  let v3 := u16 (i >>> 32) &&& 0xFF
  let v4 := u16 (i >>> 48) &&& 0xFF
  store (store (store (store dest 0 v1) 1 v2) 2 v3) 3 v4

/-! ## Reference notions of the specification -/

/-- The `n` low-order bytes of `x`, least significant first. -/
def bytesLE : Nat → Nat → List Nat
  | 0, _ => []
  | n + 1, x => x % 256 :: bytesLE n (x / 256)

/-- The number whose bytes, least significant first, are the given list. -/
def ofBytesLE : List Nat → Nat
  | [] => 0
  | b :: bs => b + 256 * ofBytesLE bs

/-- The byte reversal of `x` at a width of `n` bytes. -/
def byteReverse (n x : Nat) : Nat := ofBytesLE (bytesLE n x).reverse

/-- Bit `i` of `x`, as `0` or `1`. -/
def bitOf (x i : Nat) : Nat := x / 2 ^ i % 2

/-- The sum over `i < n` of `src[index+i] * 2 ^ i`: the byte packed from `n` bit
cells, least significant bit first. -/
def packedBits (src : Buffer) (index : Nat) : Nat → Nat
  | 0 => 0
  | n + 1 => packedBits src index n + src (index + n) * 2 ^ n

/-- The calls `modbus_set_bits_from_byte(dest, index + 8*j, s[j])` for
`j = 0, ..., m - 1`, one after the other. -/
def set_bits_from_byte_each (dest : Buffer) (index : Nat) (s : Buffer) : Nat → Buffer
  | 0 => dest
  | m + 1 => modbus_set_bits_from_byte (set_bits_from_byte_each dest index s m) (index + 8 * m) (s m)

/-! ## Arithmetic of shifts and masks -/

theorem lor_shl_of_lt (a b k : Nat) (h : b < 2 ^ k) : (a <<< k) ||| b = a * 2 ^ k + b := by
  rw [Nat.shiftLeft_eq, Nat.mul_comm a, ← Nat.mul_add_lt_is_or h]

theorem land_ffff (x : Nat) : x &&& 0xffff = x % 2 ^ 16 :=
  Nat.and_pow_two_sub_one_eq_mod x 16

theorem land_ffffffff (x : Nat) : x &&& 0xffffffff = x % 2 ^ 32 :=
  Nat.and_pow_two_sub_one_eq_mod x 32

theorem land_ff (x : Nat) : x &&& 0xFF = x % 2 ^ 8 :=
  Nat.and_pow_two_sub_one_eq_mod x 8

@[simp] theorem store_same (buf : Buffer) (a v : Nat) : store buf a v a = v := by
  simp [store]

theorem store_other (buf : Buffer) (a v j : Nat) (h : j ≠ a) : store buf a v j = buf j := by
  simp [store, h]

theorem bswap_16_bytes (a b : Nat) (ha : a < 256) (hb : b < 256) :
    bswap_16 (a + 256 * b) = b + 256 * a := by
  have hx : u16 (a + 256 * b) = a + 256 * b := by unfold u16; omega
  unfold bswap_16
  simp only [hx]
  rw [Nat.lor_comm, lor_shl_of_lt _ _ 8 (by rw [Nat.shiftRight_eq_div_pow]; omega),
    Nat.shiftRight_eq_div_pow]
  have h : (a + 256 * b) / 2 ^ 8 = b := by omega
  rw [h]
  unfold u16
  omega

theorem bswap_32_bytes (a b c d : Nat) (ha : a < 256) (hb : b < 256) (hc : c < 256)
    (hd : d < 256) :
    bswap_32 (a + 256 * b + 65536 * c + 16777216 * d)
      = d + 256 * c + 65536 * b + 16777216 * a := by
  have hx : u32 (a + 256 * b + 65536 * c + 16777216 * d)
      = a + 256 * b + 65536 * c + 16777216 * d := by unfold u32; omega
  have h1 : (a + 256 * b + 65536 * c + 16777216 * d) &&& 0xffff = a + 256 * b := by
    rw [land_ffff]; omega
  have h2 : (a + 256 * b + 65536 * c + 16777216 * d) >>> 16 = c + 256 * d := by
    rw [Nat.shiftRight_eq_div_pow]; omega
  unfold bswap_32
  simp only [hx]
  rw [h1, h2, bswap_16_bytes a b ha hb, bswap_16_bytes c d hc hd,
    lor_shl_of_lt _ _ 16 (by omega)]
  unfold u32
  omega

theorem bytes32 (x : Nat) (h : x < 2 ^ 32) :
    ∃ a b c d, a < 256 ∧ b < 256 ∧ c < 256 ∧ d < 256 ∧
      x = a + 256 * b + 65536 * c + 16777216 * d :=
  ⟨x % 256, x / 256 % 256, x / 65536 % 256, x / 16777216,
    by omega, by omega, by omega, by omega, by omega⟩

theorem bswap_32_lt (x : Nat) : bswap_32 x < 2 ^ 32 := by
  unfold bswap_32 u32; exact Nat.mod_lt _ (by norm_num)

theorem bswap_32_bswap_32 (x : Nat) (h : x < 2 ^ 32) : bswap_32 (bswap_32 x) = x := by
  obtain ⟨a, b, c, d, ha, hb, hc, hd, rfl⟩ := bytes32 x h
  rw [bswap_32_bytes a b c d ha hb hc hd, bswap_32_bytes d c b a hd hc hb ha]

/-- Reading back the two registers that a float encoder stored. -/
theorem get_float_store (dest : Buffer) (i : Nat) (hi : i < 2 ^ 32) :
    u32 (u32 (load16 (store (store dest 0 (u16 i)) 1 (u16 (i >>> 16))) 1 <<< 16)
      + load16 (store (store dest 0 (u16 i)) 1 (u16 (i >>> 16))) 0) = i := by
  simp only [load16, store_same, store_other _ 1 _ 0 (by decide), u16, u32,
    Nat.shiftLeft_eq, Nat.shiftRight_eq_div_pow]
  omega

theorem bswap_64_bytes (a b c d e f g h : Nat) (ha : a < 256) (hb : b < 256)
    (hc : c < 256) (hd : d < 256) (he : e < 256) (hf : f < 256) (hg : g < 256)
    (hh : h < 256) :
    bswap_64 (a + 256 * b + 65536 * c + 16777216 * d
        + 2 ^ 32 * (e + 256 * f + 65536 * g + 16777216 * h))
      = h + 256 * g + 65536 * f + 16777216 * e
        + 2 ^ 32 * (d + 256 * c + 65536 * b + 16777216 * a) := by
  have hlo : a + 256 * b + 65536 * c + 16777216 * d < 2 ^ 32 := by omega
  have hhi : e + 256 * f + 65536 * g + 16777216 * h < 2 ^ 32 := by omega
  generalize hL : a + 256 * b + 65536 * c + 16777216 * d = L at hlo
  generalize hH : e + 256 * f + 65536 * g + 16777216 * h = H at hhi
  have hx : u64 (L + 2 ^ 32 * H) = L + 2 ^ 32 * H := by unfold u64; omega
  have h1 : (L + 2 ^ 32 * H) &&& 0xffffffff = L := by rw [land_ffffffff]; omega
  have h2 : (L + 2 ^ 32 * H) >>> 32 = H := by rw [Nat.shiftRight_eq_div_pow]; omega
  unfold bswap_64
  simp only [hx]
  rw [h1, h2, lor_shl_of_lt _ _ 32 (bswap_32_lt H), ← hL, ← hH,
    bswap_32_bytes a b c d ha hb hc hd, bswap_32_bytes e f g h he hf hg hh]
  unfold u64
  omega

theorem bytes64 (x : Nat) (hx : x < 2 ^ 64) :
    ∃ a b c d e f g h, a < 256 ∧ b < 256 ∧ c < 256 ∧ d < 256 ∧ e < 256 ∧ f < 256 ∧
      g < 256 ∧ h < 256 ∧
      x = a + 256 * b + 65536 * c + 16777216 * d
        + 2 ^ 32 * (e + 256 * f + 65536 * g + 16777216 * h) :=
  ⟨x % 256, x / 256 % 256, x / 65536 % 256, x / 16777216 % 256,
    x / 2 ^ 32 % 256, x / 2 ^ 40 % 256, x / 2 ^ 48 % 256, x / 2 ^ 56,
    by omega, by omega, by omega, by omega, by omega, by omega, by omega, by omega,
    by omega⟩

theorem bytesLE_cons (n a y : Nat) (ha : a < 256) :
    bytesLE (n + 1) (a + 256 * y) = a :: bytesLE n y := by
  have h1 : (a + 256 * y) % 256 = a := by omega
  have h2 : (a + 256 * y) / 256 = y := by omega
  simp only [bytesLE, h1, h2]

/-- The `bswap_32` of the source is the byte reversal at a width of four bytes. -/
theorem bswap_32_eq_byteReverse (x : Nat) (hx : x < 2 ^ 32) :
    bswap_32 x = byteReverse 4 x := by
  obtain ⟨a, b, c, d, ha, hb, hc, hd, rfl⟩ := bytes32 x hx
  rw [bswap_32_bytes a b c d ha hb hc hd]
  have hx : a + 256 * b + 65536 * c + 16777216 * d
      = a + 256 * (b + 256 * (c + 256 * (d + 256 * 0))) := by omega
  rw [byteReverse, hx, bytesLE_cons _ _ _ ha, bytesLE_cons _ _ _ hb, bytesLE_cons _ _ _ hc,
    bytesLE_cons _ _ _ hd]
  simp only [bytesLE, ofBytesLE, List.reverse_cons, List.reverse_nil,
    List.nil_append, List.cons_append]
  omega

/-- The model of `bswap_64` is the byte reversal at a width of eight bytes. -/
theorem bswap_64_eq_byteReverse (x : Nat) (hx : x < 2 ^ 64) :
    bswap_64 x = byteReverse 8 x := by
  obtain ⟨a, b, c, d, e, f, g, h, ha, hb, hc, hd, he, hf, hg, hh, rfl⟩ := bytes64 x hx
  rw [bswap_64_bytes a b c d e f g h ha hb hc hd he hf hg hh]
  have hx : a + 256 * b + 65536 * c + 16777216 * d
        + 2 ^ 32 * (e + 256 * f + 65536 * g + 16777216 * h)
      = a + 256 * (b + 256 * (c + 256 * (d + 256 * (e + 256 * (f + 256 * (g
          + 256 * (h + 256 * 0))))))) := by omega
  rw [byteReverse, hx, bytesLE_cons _ _ _ ha, bytesLE_cons _ _ _ hb, bytesLE_cons _ _ _ hc,
    bytesLE_cons _ _ _ hd, bytesLE_cons _ _ _ he, bytesLE_cons _ _ _ hf,
    bytesLE_cons _ _ _ hg, bytesLE_cons _ _ _ hh]
  simp only [bytesLE, ofBytesLE, List.reverse_cons, List.reverse_nil,
    List.nil_append, List.cons_append]
  omega

/-- What `modbus_set_double_dcba` stores: register `k` holds only the low byte of
the `k`-th 16-bit slice of the byte reversal. -/
theorem set_double_dcba_register (u k : Nat) (dest : Buffer) (hu : u < 2 ^ 64) (hk : k < 4) :
    modbus_set_double_dcba u dest k = byteReverse 8 u / 2 ^ (16 * k) % 2 ^ 8 := by
  have hm : u64 u = u := Nat.mod_eq_of_lt hu
  rw [← bswap_64_eq_byteReverse u hu]
  have hk4 : k = 0 ∨ k = 1 ∨ k = 2 ∨ k = 3 := by omega
  rcases hk4 with rfl | rfl | rfl | rfl
  · simp only [modbus_set_double_dcba, store_same, store_other _ 3 _ 0 (by decide),
      store_other _ 2 _ 0 (by decide), store_other _ 1 _ 0 (by decide), hm, u16, land_ff]
    omega
  · simp only [modbus_set_double_dcba, store_same, store_other _ 3 _ 1 (by decide),
      store_other _ 2 _ 1 (by decide), hm, u16, land_ff, Nat.shiftRight_eq_div_pow]
    omega
  · simp only [modbus_set_double_dcba, store_same, store_other _ 3 _ 2 (by decide),
      hm, u16, land_ff, Nat.shiftRight_eq_div_pow]
    omega
  · simp only [modbus_set_double_dcba, store_same, hm, u16, land_ff,
      Nat.shiftRight_eq_div_pow]
    omega

/-! ## Loops over bit arrays -/

/-- The test `(x & (1 << i)) ? 1 : 0` yields bit `i` of `x`. -/
theorem bit_test_eq (x i : Nat) : (if x &&& (1 <<< i) ≠ 0 then 1 else 0) = bitOf x i := by
  rw [Nat.one_shiftLeft, Nat.and_two_pow, Nat.toNat_testBit]
  unfold bitOf
  have h2 : 0 < 2 ^ i := Nat.two_pow_pos i
  rcases Nat.mod_two_eq_zero_or_one (x / 2 ^ i) with h | h
  · simp [h]
  · simp [h, Nat.ne_of_gt h2]

theorem bitOf_le_one (x i : Nat) : bitOf x i = 0 ∨ bitOf x i = 1 := by
  unfold bitOf; omega

theorem bitOf_u8 (x i : Nat) (hi : i < 8) : bitOf (u8 x) i = bitOf x i := by
  unfold bitOf u8
  interval_cases i <;> omega

/-- A store at an `int` offset that did not overflow is a store at that cell. -/
theorem storeAt_i32 (buf : Buffer) (a v : Nat) (h : a < 2 ^ 31) :
    storeAt buf (i32 a) v = store buf a v := by
  have hu : u32 a = a := Nat.mod_eq_of_lt (by omega)
  rw [i32, hu, if_pos h]
  rfl

/-- Every cell after the loop of `modbus_set_bits_from_byte`, when no offset
`index+i` of the remaining iterations exceeds `INT_MAX`. -/
theorem set_bits_from_byte_loop_cell (index value : Nat) :
    ∀ (n i : Nat) (dest : Buffer) (j : Nat), index + i + n ≤ 2 ^ 31 →
      modbus_set_bits_from_byte_loop index value n i dest j
        = if index + i ≤ j ∧ j < index + i + n then bitOf value (j - index) else dest j := by
  intro n
  induction n with
  | zero =>
    intro i dest j _
    have h : ¬ (index + i ≤ j ∧ j < index + i + 0) := by omega
    simp only [modbus_set_bits_from_byte_loop, h, if_false]
  | succ n ih =>
    intro i dest j hmax
    rw [modbus_set_bits_from_byte_loop, ih (i + 1) _ j (by omega), bit_test_eq,
      storeAt_i32 _ _ _ (by omega)]
    by_cases hj : j = index + i
    · subst hj
      have h1 : ¬ (index + (i + 1) ≤ index + i ∧ index + i < index + (i + 1) + n) := by omega
      have h2 : index + i ≤ index + i ∧ index + i < index + i + (n + 1) := by omega
      rw [if_neg h1, if_pos h2, store_same, Nat.add_sub_cancel_left]
    · rw [store_other _ _ _ _ hj]
      by_cases hc : index + (i + 1) ≤ j ∧ j < index + (i + 1) + n
      · have h2 : index + i ≤ j ∧ j < index + i + (n + 1) := by omega
        rw [if_pos hc, if_pos h2]
      · have h2 : ¬ (index + i ≤ j ∧ j < index + i + (n + 1)) := by omega
        rw [if_neg hc, if_neg h2]

/-- Every cell after `modbus_set_bits_from_byte`, for `index ≤ INT_MAX - 7`. -/
theorem set_bits_from_byte_cell (dest : Buffer) (index value j : Nat)
    (hmax : index + 8 ≤ 2 ^ 31) :
    modbus_set_bits_from_byte dest index value j
      = if index ≤ j ∧ j < index + 8 then bitOf (u8 value) (j - index) else dest j := by
  simp only [modbus_set_bits_from_byte]
  rw [set_bits_from_byte_loop_cell index (u8 value) 8 0 dest j (by omega)]
  simp only [Nat.add_zero]

/-- Every cell after the loop of `modbus_set_bits_from_bytes`, started at `i ≥ index`
with `shift = (i - index) % 8`. -/
theorem set_bits_from_bytes_loop_cell (index : Nat) (tab_byte : Buffer) :
    ∀ (n i shift : Nat) (dest : Buffer) (j : Nat), index ≤ i → shift = (i - index) % 8 →
      modbus_set_bits_from_bytes_loop index tab_byte n i shift dest j
        = if i ≤ j ∧ j < i + n then
            bitOf (load8 tab_byte ((j - index) / 8)) ((j - index) % 8)
          else dest j := by
  intro n
  induction n with
  | zero =>
    intro i shift dest j _ _
    have h : ¬ (i ≤ j ∧ j < i + 0) := by omega
    simp only [modbus_set_bits_from_bytes_loop, h, if_false]
  | succ n ih =>
    intro i shift dest j hi hs
    rw [modbus_set_bits_from_bytes_loop, ih (i + 1) ((shift + 1) % 8) _ j (by omega)
      (by omega), bit_test_eq]
    by_cases hj : j = i
    · subst hj
      have h1 : ¬ (j + 1 ≤ j ∧ j < j + 1 + n) := by omega
      have h2 : j ≤ j ∧ j < j + (n + 1) := by omega
      rw [if_neg h1, if_pos h2, store_same, hs]
    · rw [store_other _ _ _ _ hj]
      by_cases hc : i + 1 ≤ j ∧ j < i + 1 + n
      · have h2 : i ≤ j ∧ j < i + (n + 1) := by omega
        rw [if_pos hc, if_pos h2]
      · have h2 : ¬ (i ≤ j ∧ j < i + (n + 1)) := by omega
        rw [if_neg hc, if_neg h2]

/-- Every cell after `modbus_set_bits_from_bytes`: the cells from `index` up to the
loop bound `(index + nb_bits) mod 2 ^ 32` receive the source bits. -/
theorem set_bits_from_bytes_cell (dest : Buffer) (index nb_bits : Nat) (tab_byte : Buffer)
    (j : Nat) :
    modbus_set_bits_from_bytes dest index nb_bits tab_byte j
      = if index ≤ j ∧ j < index + (u32 (index + u32 nb_bits) - index) then
          bitOf (load8 tab_byte ((j - index) / 8)) ((j - index) % 8)
        else dest j := by
  simp only [modbus_set_bits_from_bytes]
  rw [set_bits_from_bytes_loop_cell index tab_byte _ index 0 dest j (Nat.le_refl _)
    (by simp)]

/-- The loop of `modbus_get_byte_from_bits` over cells that hold the bits of `b`
accumulates `b` modulo a power of two. -/
theorem get_byte_from_bits_loop_bits (src : Buffer) (index b m : Nat) (hm : m ≤ 8)
    (hidx : index + 8 ≤ 2 ^ 32) (hsrc : ∀ i, i < m → src (index + i) = bitOf b i) :
    ∀ (n i : Nat), i + n ≤ m →
      modbus_get_byte_from_bits_loop src index n i (b % 2 ^ i) = b % 2 ^ (i + n) := by
  intro n
  induction n with
  | zero =>
    intro i _
    simp only [modbus_get_byte_from_bits_loop, Nat.add_zero]
  | succ n ih =>
    intro i hin
    have hi : i < m := by omega
    have hu : u32 (index + i) = index + i := Nat.mod_eq_of_lt (by omega)
    have hl : load8 src (index + i) = bitOf b i := by
      rw [load8, hsrc i hi, u8]
      rcases bitOf_le_one b i with h | h <;> rw [h] <;> rfl
    have hlt : b % 2 ^ (i + 1) < 2 ^ 8 :=
      Nat.lt_of_lt_of_le (Nat.mod_lt _ (Nat.two_pow_pos _))
        (Nat.pow_le_pow_right (by decide) (by omega))
    have hstep : u8 (b % 2 ^ i ||| (bitOf b i <<< i)) = b % 2 ^ (i + 1) := by
      have hs : b % 2 ^ (i + 1) = bitOf b i * 2 ^ i + b % 2 ^ i := by
        rw [Nat.mod_pow_succ, Nat.mul_comm, Nat.add_comm]
        rfl
      rw [Nat.lor_comm, lor_shl_of_lt _ _ i (Nat.mod_lt _ (Nat.two_pow_pos _)), u8, ← hs]
      exact Nat.mod_eq_of_lt hlt
    rw [modbus_get_byte_from_bits_loop, hu, hl, hstep, ih (i + 1) (by omega)]
    congr 2
    omega

/-! ## The claims -/

/-- C1: for every 32-bit pattern `f`, decoding the two registers written by
`modbus_set_float` with `modbus_get_float` gives back `f`, and decoding the two
registers written by `modbus_set_float_dcba` with `modbus_get_float_dcba` gives
back `f`. -/
theorem float_roundtrip (f : Nat) (dest : Buffer) (hf : f < 2 ^ 32) :
    modbus_get_float (modbus_set_float f dest) = f ∧
      modbus_get_float_dcba (modbus_set_float_dcba f dest) = f := by
  have hu : u32 f = f := Nat.mod_eq_of_lt hf
  constructor
  · simp only [modbus_get_float, modbus_set_float, hu]
    exact get_float_store dest f hf
  · simp only [modbus_get_float_dcba, modbus_set_float_dcba, hu]
    rw [get_float_store dest _ (bswap_32_lt f)]
    exact bswap_32_bswap_32 f hf

/-- Instance of C1 at a NaN with a payload, `0x7FC00001`. -/
theorem float_roundtrip_witness :
    0x7FC00001 < 2 ^ 32 ∧
      (modbus_get_float (modbus_set_float 0x7FC00001 (fun _ => 0)) = 0x7FC00001 ∧
        modbus_get_float_dcba (modbus_set_float_dcba 0x7FC00001 (fun _ => 0)) = 0x7FC00001) :=
  ⟨by decide, float_roundtrip 0x7FC00001 (fun _ => 0) (by decide)⟩

/-- C2: for every 64-bit pattern `d`, `modbus_get_double` applied to the four
registers written by `modbus_set_double` gives back `d`. -/
theorem double_roundtrip (d : Nat) (dest : Buffer) (hd : d < 2 ^ 64) :
    modbus_get_double (modbus_set_double d dest) = d := by
  have hu : u64 d = d := Nat.mod_eq_of_lt hd
  simp only [modbus_get_double, modbus_set_double, hu, load16, store_same,
    store_other _ 3 _ 2 (by decide), store_other _ 3 _ 1 (by decide),
    store_other _ 3 _ 0 (by decide), store_other _ 2 _ 1 (by decide),
    store_other _ 2 _ 0 (by decide), store_other _ 1 _ 0 (by decide),
    u16, u64, Nat.shiftLeft_eq, Nat.shiftRight_eq_div_pow]
  omega

/-- Instance of C2 at the pattern of `-0.0`, `0x8000000000000000`. -/
theorem double_roundtrip_witness :
    0x8000000000000000 < 2 ^ 64 ∧
      modbus_get_double (modbus_set_double 0x8000000000000000 (fun _ => 0))
        = 0x8000000000000000 :=
  ⟨by decide, double_roundtrip 0x8000000000000000 (fun _ => 0) (by decide)⟩

/-- C3, evaluated at the pattern of `1.0`, `0x3FF0000000000000`: the registers
written by `modbus_set_double_dcba` are decoded by `modbus_get_double_dcba` to a
pattern whose low half is `0x3F`, whatever the bytes next to the local `i` are, so
the result is never the pattern that was encoded. -/
theorem double_dcba_roundtrip_fails (dest : Buffer) (adjacent : Nat) :
    modbus_get_double_dcba (modbus_set_double_dcba 0x3FF0000000000000 dest) adjacent
        = u32 adjacent * 2 ^ 32 + 0x3F ∧
      modbus_get_double_dcba (modbus_set_double_dcba 0x3FF0000000000000 dest) adjacent
        ≠ 0x3FF0000000000000 := by
  have hi : modbus_get_double_dcba_i (modbus_set_double_dcba 0x3FF0000000000000 dest)
      = 0x3F := by
    simp only [modbus_get_double_dcba_i, modbus_set_double_dcba, load16, store_same,
      store_other _ 3 _ 2 (by decide), store_other _ 3 _ 1 (by decide),
      store_other _ 3 _ 0 (by decide), store_other _ 2 _ 1 (by decide),
      store_other _ 2 _ 0 (by decide), store_other _ 1 _ 0 (by decide)]
    decide
  have hr : modbus_get_double_dcba (modbus_set_double_dcba 0x3FF0000000000000 dest) adjacent
      = u32 adjacent * 2 ^ 32 + 0x3F := by
    simp only [modbus_get_double_dcba, hi]
  refine ⟨hr, ?_⟩
  rw [hr]
  omega

/-- C6: for every 32-bit pattern `u`, `modbus_set_float` stores the low 16 bits of
`u` in register 0 and the high 16 bits in register 1, and `modbus_set_float_dcba`
does the same with the four-byte reversal of `u`.  For `u = 0x3F800000` the
registers are `[0x0000, 0x3F80]` and `[0x803F, 0x0000]`. -/
theorem set_float_registers (u : Nat) (dest : Buffer) (hu : u < 2 ^ 32) :
    (modbus_set_float u dest 0 = u % 2 ^ 16 ∧ modbus_set_float u dest 1 = u / 2 ^ 16) ∧
    (modbus_set_float_dcba u dest 0 = byteReverse 4 u % 2 ^ 16 ∧
      modbus_set_float_dcba u dest 1 = byteReverse 4 u / 2 ^ 16) ∧
    (modbus_set_float 0x3F800000 dest 0 = 0x0000 ∧
      modbus_set_float 0x3F800000 dest 1 = 0x3F80 ∧
      modbus_set_float_dcba 0x3F800000 dest 0 = 0x803F ∧
      modbus_set_float_dcba 0x3F800000 dest 1 = 0x0000) := by
  have hm : u32 u = u := Nat.mod_eq_of_lt hu
  have hb := bswap_32_lt u
  rw [← bswap_32_eq_byteReverse u hu]
  refine ⟨⟨?_, ?_⟩, ⟨?_, ?_⟩, ?_, ?_, ?_, ?_⟩
  · simp only [modbus_set_float, store_same, store_other _ 1 _ 0 (by decide), hm, u16]
  · simp only [modbus_set_float, store_same, hm, u16, Nat.shiftRight_eq_div_pow]
    omega
  · simp only [modbus_set_float_dcba, store_same, store_other _ 1 _ 0 (by decide), hm, u16]
  · simp only [modbus_set_float_dcba, store_same, hm, u16, Nat.shiftRight_eq_div_pow]
    omega
  · simp only [modbus_set_float, store_same, store_other _ 1 _ 0 (by decide)]
    decide
  · simp only [modbus_set_float, store_same]
    decide
  · simp only [modbus_set_float_dcba, store_same, store_other _ 1 _ 0 (by decide)]
    decide
  · simp only [modbus_set_float_dcba, store_same]
    decide

/-- Instance of C6 at the pattern of `-2.5`, `0xC0200000`. -/
theorem set_float_registers_witness :
    0xC0200000 < 2 ^ 32 ∧
    ((modbus_set_float 0xC0200000 (fun _ => 7) 0 = 0xC0200000 % 2 ^ 16 ∧
        modbus_set_float 0xC0200000 (fun _ => 7) 1 = 0xC0200000 / 2 ^ 16) ∧
      (modbus_set_float_dcba 0xC0200000 (fun _ => 7) 0 = byteReverse 4 0xC0200000 % 2 ^ 16 ∧
        modbus_set_float_dcba 0xC0200000 (fun _ => 7) 1
          = byteReverse 4 0xC0200000 / 2 ^ 16) ∧
      (modbus_set_float 0x3F800000 (fun _ => 7) 0 = 0x0000 ∧
        modbus_set_float 0x3F800000 (fun _ => 7) 1 = 0x3F80 ∧
        modbus_set_float_dcba 0x3F800000 (fun _ => 7) 0 = 0x803F ∧
        modbus_set_float_dcba 0x3F800000 (fun _ => 7) 1 = 0x0000)) :=
  ⟨by decide, set_float_registers 0xC0200000 (fun _ => 7) (by decide)⟩

/-- C7 as stated fails: for `0x3F800000` register 0 is not the high-order half
`0x3F80` (it is `0x0000`), so the pair is not (high half, low half). -/
theorem set_float_high_first_fails :
    ¬ (modbus_set_float 0x3F800000 (fun _ => 0) 0 = 0x3F800000 / 2 ^ 16 ∧
        modbus_set_float 0x3F800000 (fun _ => 0) 1 = 0x3F800000 % 2 ^ 16) := by
  decide

/-- C7, amended: for every 32-bit pattern `u`, `modbus_set_float` leaves the
low-order 16 bits of `u` in register 0 and the high-order 16 bits in register 1,
and no byte is swapped inside a register: the low byte of each register is the
lower-order byte of its half. -/
theorem set_float_low_first (u : Nat) (dest : Buffer) (hu : u < 2 ^ 32) :
    modbus_set_float u dest 0 = u % 2 ^ 16 ∧
    modbus_set_float u dest 1 = u / 2 ^ 16 ∧
    modbus_set_float u dest 0 % 256 = u % 256 ∧
    modbus_set_float u dest 0 / 256 = u / 2 ^ 8 % 256 ∧
    modbus_set_float u dest 1 % 256 = u / 2 ^ 16 % 256 ∧
    modbus_set_float u dest 1 / 256 = u / 2 ^ 24 := by
  have hm : u32 u = u := Nat.mod_eq_of_lt hu
  have h0 : modbus_set_float u dest 0 = u % 2 ^ 16 := by
    simp only [modbus_set_float, store_same, store_other _ 1 _ 0 (by decide), hm, u16]
  have h1 : modbus_set_float u dest 1 = u / 2 ^ 16 := by
    simp only [modbus_set_float, store_same, hm, u16, Nat.shiftRight_eq_div_pow]
    omega
  rw [h0, h1]
  refine ⟨rfl, rfl, ?_, ?_, ?_, ?_⟩ <;> omega

/-- Instance of amended C7 at the pattern of `1.0`, `0x3F800000`. -/
theorem set_float_low_first_witness :
    0x3F800000 < 2 ^ 32 ∧
    (modbus_set_float 0x3F800000 (fun _ => 0) 0 = 0x3F800000 % 2 ^ 16 ∧
      modbus_set_float 0x3F800000 (fun _ => 0) 1 = 0x3F800000 / 2 ^ 16 ∧
      modbus_set_float 0x3F800000 (fun _ => 0) 0 % 256 = 0x3F800000 % 256 ∧
      modbus_set_float 0x3F800000 (fun _ => 0) 0 / 256 = 0x3F800000 / 2 ^ 8 % 256 ∧
      modbus_set_float 0x3F800000 (fun _ => 0) 1 % 256 = 0x3F800000 / 2 ^ 16 % 256 ∧
      modbus_set_float 0x3F800000 (fun _ => 0) 1 / 256 = 0x3F800000 / 2 ^ 24) :=
  ⟨by decide, set_float_low_first 0x3F800000 (fun _ => 0) (by decide)⟩

/-- C8, evaluated at the pattern of `1.0`, `0x3FF0000000000000`: the low 16-bit
slice of its 64-bit byte reversal is `0xF03F`, and `modbus_set_double_dcba` stores
`0x3F` in register 0. -/
theorem set_double_dcba_masks (dest : Buffer) :
    byteReverse 8 0x3FF0000000000000 / 2 ^ (16 * 0) % 2 ^ 16 = 0xF03F ∧
      modbus_set_double_dcba 0x3FF0000000000000 dest 0 = 0x3F := by
  refine ⟨by decide, ?_⟩
  simp only [modbus_set_double_dcba, store_same, store_other _ 3 _ 0 (by decide),
    store_other _ 2 _ 0 (by decide), store_other _ 1 _ 0 (by decide)]
  decide

/-- C9, evaluated at the registers `[0xF03F, 0, 0, 0]`: the assembled integer is
`0xF03F`, its 64-bit byte reversal is `0x3FF0000000000000` (the pattern of `1.0`),
and `modbus_get_double_dcba` returns a pattern whose low half is `0xF03F`,
whatever the bytes next to the local `i` are. -/
theorem get_double_dcba_truncates (adjacent : Nat) :
    byteReverse 8 ((0 <<< 48) ||| (0 <<< 32) ||| (0 <<< 16) ||| 0xF03F)
        = 0x3FF0000000000000 ∧
      modbus_get_double_dcba (fun j => if j = 0 then 0xF03F else 0) adjacent
        = u32 adjacent * 2 ^ 32 + 0xF03F ∧
      modbus_get_double_dcba (fun j => if j = 0 then 0xF03F else 0) adjacent
        ≠ 0x3FF0000000000000 := by
  have hi : modbus_get_double_dcba_i (fun j => if j = 0 then 0xF03F else 0) = 0xF03F := by
    decide
  have hr : modbus_get_double_dcba (fun j => if j = 0 then 0xF03F else 0) adjacent
      = u32 adjacent * 2 ^ 32 + 0xF03F := by
    simp only [modbus_get_double_dcba, hi]
  refine ⟨by decide, hr, ?_⟩
  rw [hr]
  omega

/-- C4 as stated fails: at `index = 2147483644` the offsets `index+4 .. index+7` of
`modbus_set_bits_from_byte` exceed `INT_MAX` and wrap around to negative offsets,
the cells `dest[index+4 .. index+7]` keep their `0`, and
`modbus_get_byte_from_bits(dest, index, 8)` returns `5` for the byte `0xA5`, with or
without assertions. -/
theorem set_byte_get_byte_overflow :
    (0xA5 < 256 ∧ 2147483644 < 2 ^ 31) ∧
      modbus_get_byte_from_bits false
          (modbus_set_bits_from_byte (fun _ => 0) 2147483644 0xA5) 2147483644 8 = some 5 ∧
      modbus_get_byte_from_bits true
          (modbus_set_bits_from_byte (fun _ => 0) 2147483644 0xA5) 2147483644 8 = some 5 ∧
      ¬ (modbus_get_byte_from_bits false
          (modbus_set_bits_from_byte (fun _ => 0) 2147483644 0xA5) 2147483644 8
            = some 0xA5) := by
  decide

/-- C4, amended: for every byte `b` and every index with `index ≤ INT_MAX - 7`, after
`modbus_set_bits_from_byte(dest, index, b)` the call
`modbus_get_byte_from_bits(dest, index, 8)` returns `b`, with or without
assertions. -/
theorem set_byte_get_byte (NDEBUG : Bool) (dest : Buffer) (index b : Nat) (hb : b < 256)
    (hidx : index + 8 ≤ 2 ^ 31) :
    modbus_get_byte_from_bits NDEBUG (modbus_set_bits_from_byte dest index b) index 8
      = some b := by
  have hsrc : ∀ i, i < 8 → modbus_set_bits_from_byte dest index b (index + i) = bitOf b i := by
    intro i hi
    rw [set_bits_from_byte_cell _ _ _ _ hidx, if_pos (by omega), Nat.add_sub_cancel_left,
      bitOf_u8 b i hi]
  have hloop := get_byte_from_bits_loop_bits (modbus_set_bits_from_byte dest index b) index b 8
    (Nat.le_refl _) (by omega) hsrc 8 0 (by omega)
  have h0 : b % 2 ^ 0 = 0 := by omega
  have h8 : b % 2 ^ (0 + 8) = b := by omega
  rw [h0, h8] at hloop
  have hn : u32 8 = 8 := by decide
  simp only [modbus_get_byte_from_bits, hn, Nat.lt_irrefl, if_false, hloop]

/-- Instance of amended C4 at the byte `0xA5` and the largest index allowed,
`2147483640`, in a build with assertions. -/
theorem set_byte_get_byte_witness :
    (0xA5 < 256 ∧ 2147483640 + 8 ≤ 2 ^ 31) ∧
      modbus_get_byte_from_bits false
          (modbus_set_bits_from_byte (fun _ => 0) 2147483640 0xA5) 2147483640 8
        = some 0xA5 :=
  ⟨⟨by decide, by decide⟩,
    set_byte_get_byte false (fun _ => 0) 2147483640 0xA5 (by decide) (by decide)⟩

/-- C5: for every bit count `n ≤ 8`, every index and every source array whose first
byte is `b`, after `modbus_set_bits_from_bytes(dest, index, n, source)` the call
`modbus_get_byte_from_bits(dest, index, n)` returns `b mod 2 ^ n`; a byte
`b < 2 ^ n` is returned unchanged. -/
theorem set_bytes_get_byte (NDEBUG : Bool) (dest tab_byte : Buffer) (index n b : Nat)
    (hn : n ≤ 8) (hidx : index < 2 ^ 31) (hb : tab_byte 0 = b) :
    modbus_get_byte_from_bits NDEBUG (modbus_set_bits_from_bytes dest index n tab_byte) index n
        = some (b % 2 ^ n) ∧
      (b < 2 ^ n →
        modbus_get_byte_from_bits NDEBUG (modbus_set_bits_from_bytes dest index n tab_byte)
          index n = some b) := by
  have hun : u32 n = n := Nat.mod_eq_of_lt (by omega)
  have hcount : u32 (index + u32 n) - index = n := by
    rw [hun, u32, Nat.mod_eq_of_lt (by omega)]
    omega
  have hsrc : ∀ i, i < n →
      modbus_set_bits_from_bytes dest index n tab_byte (index + i) = bitOf b i := by
    intro i hi
    rw [set_bits_from_bytes_cell, hcount, if_pos (by omega), Nat.add_sub_cancel_left,
      Nat.div_eq_of_lt (by omega), Nat.mod_eq_of_lt (by omega), load8, hb,
      bitOf_u8 b i (by omega)]
  have hloop := get_byte_from_bits_loop_bits (modbus_set_bits_from_bytes dest index n tab_byte)
    index b n hn (by omega) hsrc n 0 (by omega)
  have h0 : b % 2 ^ 0 = 0 := by omega
  rw [h0, Nat.zero_add] at hloop
  have hmain : modbus_get_byte_from_bits NDEBUG
      (modbus_set_bits_from_bytes dest index n tab_byte) index n = some (b % 2 ^ n) := by
    have hgt : ¬ n > 8 := by omega
    simp only [modbus_get_byte_from_bits, hun, hgt, if_false, hloop]
  refine ⟨hmain, fun hlt => ?_⟩
  rw [hmain, Nat.mod_eq_of_lt hlt]

/-- Instance of C5: five bits taken from the byte `0x15`, which is below `2 ^ 5`, index `2`. -/
theorem set_bytes_get_byte_witness :
    (5 ≤ 8 ∧ 2 < 2 ^ 31 ∧ (fun _ => 0x15 : Buffer) 0 = 0x15) ∧
      (modbus_get_byte_from_bits true
          (modbus_set_bits_from_bytes (fun _ => 9) 2 5 (fun _ => 0x15)) 2 5
          = some (0x15 % 2 ^ 5) ∧
        (0x15 < 2 ^ 5 →
          modbus_get_byte_from_bits true
            (modbus_set_bits_from_bytes (fun _ => 9) 2 5 (fun _ => 0x15)) 2 5 = some 0x15)) :=
  ⟨⟨by decide, by decide, rfl⟩,
    set_bytes_get_byte true (fun _ => 9) (fun _ => 0x15) 2 5 0x15 (by decide) (by decide) rfl⟩

/-- C10 as stated fails: at `index = 2147483644` the offsets `index+4 .. index+7`
exceed `INT_MAX` and wrap around to negative offsets; for `v = 0xA5` the cell
`dest[index+5]` keeps its `0` although bit 5 of `v` is `1`, and the eight cells are
`[1,0,1,0,0,0,0,0]`. -/
theorem set_bits_from_byte_bits_overflow :
    (0xA5 < 256 ∧ 5 < 8) ∧
      modbus_set_bits_from_byte (fun _ => 0) 2147483644 0xA5 (2147483644 + 5) = 0 ∧
      bitOf 0xA5 5 = 1 ∧
      ¬ (modbus_set_bits_from_byte (fun _ => 0) 2147483644 0xA5 (2147483644 + 5)
          = bitOf 0xA5 5) ∧
      (List.range 8).map
          (fun k => modbus_set_bits_from_byte (fun _ => 0) 2147483644 0xA5 (2147483644 + k))
        = [1, 0, 1, 0, 0, 0, 0, 0] := by
  decide

/-- C10, amended: for every byte `v`, every index with `index ≤ INT_MAX - 7` and every
`i < 8`, after `modbus_set_bits_from_byte(dest, index, v)` the cell `dest[index+i]`
is bit `i` of `v`, hence `0` or `1`; for `v = 5` the eight cells are
`[1,0,1,0,0,0,0,0]`. -/
theorem set_bits_from_byte_bits (dest : Buffer) (index v i : Nat) (hv : v < 256) (hi : i < 8)
    (hidx : index + 8 ≤ 2 ^ 31) :
    modbus_set_bits_from_byte dest index v (index + i) = bitOf v i ∧
      (modbus_set_bits_from_byte dest index v (index + i) = 0 ∨
        modbus_set_bits_from_byte dest index v (index + i) = 1) ∧
      (List.range 8).map (fun k => modbus_set_bits_from_byte dest index 5 (index + k))
        = [1, 0, 1, 0, 0, 0, 0, 0] := by
  have hcell : ∀ w k, k < 8 →
      modbus_set_bits_from_byte dest index w (index + k) = bitOf (u8 w) k := by
    intro w k hk
    rw [set_bits_from_byte_cell _ _ _ _ hidx, if_pos (by omega), Nat.add_sub_cancel_left]
  have hu : u8 v = v := Nat.mod_eq_of_lt hv
  refine ⟨?_, ?_, ?_⟩
  · rw [hcell v i hi, hu]
  · rw [hcell v i hi]
    exact bitOf_le_one _ _
  · have hr : List.range 8 = [0, 1, 2, 3, 4, 5, 6, 7] := by decide
    rw [hr]
    simp only [List.map_cons, List.map_nil]
    rw [hcell 5 0 (by decide), hcell 5 1 (by decide), hcell 5 2 (by decide),
      hcell 5 3 (by decide), hcell 5 4 (by decide), hcell 5 5 (by decide),
      hcell 5 6 (by decide), hcell 5 7 (by decide)]
    decide

/-- Instance of amended C10 at the byte `0x80`, the largest index allowed,
`2147483640`, bit `7`. -/
theorem set_bits_from_byte_bits_witness :
    (0x80 < 256 ∧ 7 < 8 ∧ 2147483640 + 8 ≤ 2 ^ 31) ∧
      (modbus_set_bits_from_byte (fun _ => 3) 2147483640 0x80 (2147483640 + 7) = bitOf 0x80 7 ∧
        (modbus_set_bits_from_byte (fun _ => 3) 2147483640 0x80 (2147483640 + 7) = 0 ∨
          modbus_set_bits_from_byte (fun _ => 3) 2147483640 0x80 (2147483640 + 7) = 1) ∧
        (List.range 8).map
            (fun k => modbus_set_bits_from_byte (fun _ => 3) 2147483640 5 (2147483640 + k))
          = [1, 0, 1, 0, 0, 0, 0, 0]) :=
  ⟨⟨by decide, by decide, by decide⟩,
    set_bits_from_byte_bits (fun _ => 3) 2147483640 0x80 7 (by decide) (by decide) (by decide)⟩

/-! ## The claims on bit arrays, continued -/

/-- The number of iterations of the loop of `modbus_set_bits_from_bytes` when the
bound `index + nb_bits` does not wrap around. -/
theorem set_bits_from_bytes_count (index n : Nat) (h : index + n < 2 ^ 32) :
    u32 (index + u32 n) - index = n := by
  have hn : u32 n = n := Nat.mod_eq_of_lt (by omega)
  rw [hn, u32, Nat.mod_eq_of_lt h]
  omega

/-- The loop of `modbus_set_bits_from_bytes` never runs more than `nb_bits` times. -/
theorem set_bits_from_bytes_count_le (index n : Nat) : u32 (index + u32 n) - index ≤ n := by
  have h1 : u32 n ≤ n := Nat.mod_le _ _
  have h2 : u32 (index + u32 n) ≤ index + u32 n := Nat.mod_le _ _
  omega

/-- C11 as stated fails: with `index = 1` and `nb_bits = 4294967295` the loop bound
`index + nb_bits` is `0` in `unsigned int`, no cell is written, and `dest[1]`
keeps its `0` although bit 0 of the source byte `0xFF` is `1`. -/
theorem set_bits_from_bytes_wraps :
    (0 < 4294967295 ∧ 4294967295 < 2 ^ 32) ∧
      modbus_set_bits_from_bytes (fun _ => 0) 1 4294967295 (fun _ => 0xFF) (1 + 0) = 0 ∧
      bitOf ((fun _ => 0xFF : Buffer) (0 / 8)) (0 % 8) = 1 ∧
      ¬ (modbus_set_bits_from_bytes (fun _ => 0) 1 4294967295 (fun _ => 0xFF) (1 + 0)
          = bitOf ((fun _ => 0xFF : Buffer) (0 / 8)) (0 % 8)) := by
  decide

/-- C11, amended: for every index and bit count `n` with `index + n < 2 ^ 32`, every
source array and every `k < n`, after
`modbus_set_bits_from_bytes(dest, index, n, source)` the cell `dest[index+k]` is
bit `k mod 8` of `source[k div 8]`, hence `0` or `1`. -/
theorem set_bits_from_bytes_bits (dest tab_byte : Buffer) (index n k : Nat)
    (hsum : index + n < 2 ^ 32) (hk : k < n) :
    modbus_set_bits_from_bytes dest index n tab_byte (index + k)
        = bitOf (tab_byte (k / 8)) (k % 8) ∧
      (modbus_set_bits_from_bytes dest index n tab_byte (index + k) = 0 ∨
        modbus_set_bits_from_bytes dest index n tab_byte (index + k) = 1) := by
  have hcell : modbus_set_bits_from_bytes dest index n tab_byte (index + k)
      = bitOf (tab_byte (k / 8)) (k % 8) := by
    rw [set_bits_from_bytes_cell, set_bits_from_bytes_count index n hsum,
      if_pos (by omega), Nat.add_sub_cancel_left, load8,
      bitOf_u8 _ _ (Nat.mod_lt _ (by decide))]
  rw [hcell]
  exact ⟨rfl, bitOf_le_one _ _⟩

/-- Instance of amended C11: eleven bits from the bytes `0xA5, 0x03`, cell `9`. -/
theorem set_bits_from_bytes_bits_witness :
    (4 + 11 < 2 ^ 32 ∧ 9 < 11) ∧
      (modbus_set_bits_from_bytes (fun _ => 0) 4 11 (fun j => if j = 0 then 0xA5 else 0x03)
            (4 + 9)
          = bitOf ((fun j => if j = 0 then 0xA5 else 0x03 : Buffer) (9 / 8)) (9 % 8) ∧
        (modbus_set_bits_from_bytes (fun _ => 0) 4 11 (fun j => if j = 0 then 0xA5 else 0x03)
              (4 + 9) = 0 ∨
          modbus_set_bits_from_bytes (fun _ => 0) 4 11 (fun j => if j = 0 then 0xA5 else 0x03)
              (4 + 9) = 1)) :=
  ⟨⟨by decide, by decide⟩,
    set_bits_from_bytes_bits (fun _ => 0) (fun j => if j = 0 then 0xA5 else 0x03) 4 11 9
      (by decide) (by decide)⟩

/-- C17: `modbus_set_bits_from_bytes(dest, index, n, source)` leaves every cell
`dest[j]` with `j < index` or `j ≥ index + n` unchanged, and with `n = 0` it leaves
`dest` unchanged. -/
theorem set_bits_from_bytes_frame (dest tab_byte : Buffer) (index n j : Nat)
    (hj : j < index ∨ index + n ≤ j) :
    modbus_set_bits_from_bytes dest index n tab_byte j = dest j ∧
      modbus_set_bits_from_bytes dest index 0 tab_byte = dest := by
  have hframe : ∀ m i, i < index ∨ index + m ≤ i →
      modbus_set_bits_from_bytes dest index m tab_byte i = dest i := by
    intro m i hi
    have hle := set_bits_from_bytes_count_le index m
    rw [set_bits_from_bytes_cell, if_neg (by omega)]
  refine ⟨hframe n j hj, ?_⟩
  funext i
  exact hframe 0 i (by omega)

/-- Instance of C17: three bits written at index `5`, the cell `8` right after them. -/
theorem set_bits_from_bytes_frame_witness :
    (8 < 5 ∨ 5 + 3 ≤ 8) ∧
      (modbus_set_bits_from_bytes (fun _ => 7) 5 3 (fun _ => 0xFF) 8 = (fun _ => 7 : Buffer) 8 ∧
        modbus_set_bits_from_bytes (fun _ => 7) 5 0 (fun _ => 0xFF) = (fun _ => 7)) :=
  ⟨Or.inr (by decide),
    set_bits_from_bytes_frame (fun _ => 7) (fun _ => 0xFF) 5 3 8 (Or.inr (by decide))⟩

/-- The packed value of `n` cells that are `0` or `1` is below `2 ^ n`. -/
theorem packedBits_lt (src : Buffer) (index : Nat) :
    ∀ n, (∀ i, i < n → src (index + i) = 0 ∨ src (index + i) = 1) →
      packedBits src index n < 2 ^ n := by
  intro n
  induction n with
  | zero => intro _; simp [packedBits]
  | succ n ih =>
    intro h
    have h1 := ih (fun i hi => h i (by omega))
    have h2 : src (index + n) * 2 ^ n ≤ 2 ^ n := by
      rcases h n (by omega) with h0 | h0 <;> rw [h0] <;> omega
    rw [packedBits, Nat.pow_succ]
    omega

/-- The loop of `modbus_get_byte_from_bits` over cells that are `0` or `1` adds up
the packed value. -/
theorem get_byte_from_bits_loop_sum (src : Buffer) (index m : Nat) (hm : m ≤ 8)
    (hidx : index + 8 ≤ 2 ^ 32)
    (hsrc : ∀ i, i < m → src (index + i) = 0 ∨ src (index + i) = 1) :
    ∀ (n i : Nat), i + n ≤ m →
      modbus_get_byte_from_bits_loop src index n i (packedBits src index i)
        = packedBits src index (i + n) := by
  intro n
  induction n with
  | zero =>
    intro i _
    simp only [modbus_get_byte_from_bits_loop, Nat.add_zero]
  | succ n ih =>
    intro i hin
    have hi : i < m := by omega
    have hu : u32 (index + i) = index + i := Nat.mod_eq_of_lt (by omega)
    have hl : load8 src (index + i) = src (index + i) := by
      rw [load8, u8]
      rcases hsrc i hi with h | h <;> rw [h] <;> rfl
    have hlt : packedBits src index i < 2 ^ i :=
      packedBits_lt src index i (fun k hk => hsrc k (by omega))
    have hlt1 : packedBits src index (i + 1) < 2 ^ (i + 1) :=
      packedBits_lt src index (i + 1) (fun k hk => hsrc k (by omega))
    have hle : 2 ^ (i + 1) ≤ 2 ^ 8 := Nat.pow_le_pow_right (by decide) (by omega)
    have hstep : u8 (packedBits src index i ||| (src (index + i) <<< i))
        = packedBits src index (i + 1) := by
      rw [Nat.lor_comm, lor_shl_of_lt _ _ i hlt, u8, Nat.add_comm]
      exact Nat.mod_eq_of_lt (Nat.lt_of_lt_of_le hlt1 hle)
    rw [modbus_get_byte_from_bits_loop, hu, hl, hstep, ih (i + 1) (by omega)]
    congr 1
    omega

/-- The loop of `modbus_get_byte_from_bits` reads only the cells it iterates over. -/
theorem get_byte_from_bits_loop_congr (src src2 : Buffer) (index : Nat) :
    ∀ (n i value : Nat),
      (∀ k, i ≤ k → k < i + n → src2 (u32 (index + k)) = src (u32 (index + k))) →
      modbus_get_byte_from_bits_loop src2 index n i value
        = modbus_get_byte_from_bits_loop src index n i value := by
  intro n
  induction n with
  | zero => intro i value _; rfl
  | succ n ih =>
    intro i value h
    rw [modbus_get_byte_from_bits_loop, modbus_get_byte_from_bits_loop, load8, load8,
      h i (Nat.le_refl _) (by omega)]
    exact ih (i + 1) _ (fun k hk1 hk2 => h k (by omega) (by omega))

/-- C12: for every `n ≤ 8`, every index and every `src` whose cells
`src[index .. index+n-1]` are `0` or `1`, `modbus_get_byte_from_bits(src, index, n)`
returns the sum over `i < n` of `src[index+i] * 2 ^ i`, a value below `2 ^ n`; the
bits `[1,1,0,0,0,0,0,0]` with `n = 2` give `3`. -/
theorem get_byte_from_bits_sum (NDEBUG : Bool) (src : Buffer) (index n : Nat) (hn : n ≤ 8)
    (hidx : index < 2 ^ 31)
    (hsrc : ∀ i, i < n → src (index + i) = 0 ∨ src (index + i) = 1) :
    modbus_get_byte_from_bits NDEBUG src index n = some (packedBits src index n) ∧
      packedBits src index n < 2 ^ n ∧
      modbus_get_byte_from_bits NDEBUG (fun j => [1, 1, 0, 0, 0, 0, 0, 0].getD j 0) 0 2
        = some 3 := by
  have hun : u32 n = n := Nat.mod_eq_of_lt (by omega)
  have hloop := get_byte_from_bits_loop_sum src index n hn (by omega) hsrc n 0 (by omega)
  rw [Nat.zero_add] at hloop
  have hgt : ¬ n > 8 := by omega
  refine ⟨?_, packedBits_lt src index n hsrc, ?_⟩
  · simp only [modbus_get_byte_from_bits, hun, hgt, if_false]
    rw [← hloop]
    rfl
  · cases NDEBUG <;> decide

/-- Instance of C12: the cells `[1,0,1]` at index `1`, which pack to `5`. -/
theorem get_byte_from_bits_sum_witness :
    (3 ≤ 8 ∧ 1 < 2 ^ 31 ∧
        ∀ i, i < 3 → (fun j => [9, 1, 0, 1].getD j 0 : Buffer) (1 + i) = 0 ∨
          (fun j => [9, 1, 0, 1].getD j 0 : Buffer) (1 + i) = 1) ∧
      (modbus_get_byte_from_bits false (fun j => [9, 1, 0, 1].getD j 0) 1 3
          = some (packedBits (fun j => [9, 1, 0, 1].getD j 0) 1 3) ∧
        packedBits (fun j => [9, 1, 0, 1].getD j 0) 1 3 < 2 ^ 3 ∧
        modbus_get_byte_from_bits false (fun j => [1, 1, 0, 0, 0, 0, 0, 0].getD j 0) 0 2
          = some 3) :=
  ⟨⟨by decide, by decide, by decide⟩,
    get_byte_from_bits_sum false (fun j => [9, 1, 0, 1].getD j 0) 1 3 (by decide) (by decide)
      (by decide)⟩

/-- C13: with assertions compiled out, for every `src`, every index and every
`bit_count > 8`, `modbus_get_byte_from_bits(src, index, bit_count)` returns what
`modbus_get_byte_from_bits(src, index, 8)` returns, and the same for every array
that agrees with `src` on the cells `src[index .. index+7]`. -/
theorem get_byte_from_bits_clamp (src src2 : Buffer) (index n : Nat) (hn : 8 < n)
    (hn32 : n < 2 ^ 32) (hidx : index < 2 ^ 31)
    (hagree : ∀ k, k < 8 → src2 (index + k) = src (index + k)) :
    modbus_get_byte_from_bits true src index n = modbus_get_byte_from_bits true src index 8 ∧
      modbus_get_byte_from_bits true src2 index n
        = modbus_get_byte_from_bits true src index n ∧
      modbus_get_byte_from_bits true src index n
        = some (modbus_get_byte_from_bits_loop src index 8 0 0) := by
  have hun : u32 n = n := Nat.mod_eq_of_lt hn32
  have h8 : u32 8 = 8 := by decide
  have hval : ∀ b : Buffer, modbus_get_byte_from_bits true b index n
      = some (modbus_get_byte_from_bits_loop b index 8 0 0) := by
    intro b
    simp only [modbus_get_byte_from_bits, hun, gt_iff_lt, hn, if_true, Bool.true_or]
  have hval8 : modbus_get_byte_from_bits true src index 8
      = some (modbus_get_byte_from_bits_loop src index 8 0 0) := by
    simp only [modbus_get_byte_from_bits, h8, gt_iff_lt, Nat.lt_irrefl, if_false]
  have hcongr := get_byte_from_bits_loop_congr src src2 index 8 0 0 (by
    intro k _ hk
    have hk8 : k < 8 := by omega
    have hu : u32 (index + k) = index + k := Nat.mod_eq_of_lt (by omega)
    rw [hu, hagree k hk8])
  refine ⟨?_, ?_, hval src⟩
  · rw [hval src, hval8]
  · rw [hval src2, hval src, hcongr]

/-- Instance of C13: `bit_count = 12`, two arrays that differ only at cell `8`. -/
theorem get_byte_from_bits_clamp_witness :
    (8 < 12 ∧ 12 < 2 ^ 32 ∧ 0 < 2 ^ 31 ∧
        ∀ k, k < 8 → (fun j => if j = 8 then 0 else 1 : Buffer) (0 + k)
          = (fun _ => 1 : Buffer) (0 + k)) ∧
      (modbus_get_byte_from_bits true (fun _ => 1) 0 12
          = modbus_get_byte_from_bits true (fun _ => 1) 0 8 ∧
        modbus_get_byte_from_bits true (fun j => if j = 8 then 0 else 1) 0 12
          = modbus_get_byte_from_bits true (fun _ => 1) 0 12 ∧
        modbus_get_byte_from_bits true (fun _ => 1) 0 12
          = some (modbus_get_byte_from_bits_loop (fun _ => 1) 0 8 0 0)) :=
  ⟨⟨by decide, by decide, by decide, by decide⟩,
    get_byte_from_bits_clamp (fun _ => 1) (fun j => if j = 8 then 0 else 1) 0 12 (by decide)
      (by decide) (by decide) (by decide)⟩

/-- C14: with assertions enabled, `modbus_get_byte_from_bits` fails its assertion
exactly when `bit_count > 8`, and then for every source array, no cell being packed;
for `bit_count ≤ 8`, and for `8` itself, it returns the packed byte. -/
theorem get_byte_from_bits_assert (src : Buffer) (index n : Nat) (hn32 : n < 2 ^ 32) :
    (modbus_get_byte_from_bits false src index n = none ↔ 8 < n) ∧
      (8 < n → ∀ src2 : Buffer, modbus_get_byte_from_bits false src2 index n = none) ∧
      (n ≤ 8 → modbus_get_byte_from_bits false src index n
        = some (modbus_get_byte_from_bits_loop src index n 0 0)) ∧
      modbus_get_byte_from_bits false src index 8
        = some (modbus_get_byte_from_bits_loop src index 8 0 0) := by
  have hun : u32 n = n := Nat.mod_eq_of_lt hn32
  have h8 : u32 8 = 8 := by decide
  have hfail : 8 < n → ∀ src2 : Buffer, modbus_get_byte_from_bits false src2 index n = none := by
    intro h src2
    have h2 : ¬ n < 8 := by omega
    simp only [modbus_get_byte_from_bits, hun, gt_iff_lt, h, if_true, Bool.false_or, h2,
      decide_False, Bool.false_eq_true, if_false]
  have hok : n ≤ 8 → modbus_get_byte_from_bits false src index n
      = some (modbus_get_byte_from_bits_loop src index n 0 0) := by
    intro h
    have h2 : ¬ 8 < n := by omega
    simp only [modbus_get_byte_from_bits, hun, gt_iff_lt, h2, if_false]
  refine ⟨⟨fun h => ?_, fun h => hfail h src⟩, hfail, hok, ?_⟩
  · by_cases hc : 8 < n
    · exact hc
    · rw [hok (by omega)] at h
      exact absurd h (by simp)
  · simp only [modbus_get_byte_from_bits, h8, gt_iff_lt, Nat.lt_irrefl, if_false]

/-- Instance of C14 at `bit_count = 9`, where the assertion fails. -/
theorem get_byte_from_bits_assert_witness :
    9 < 2 ^ 32 ∧
      ((modbus_get_byte_from_bits false (fun _ => 1) 0 9 = none ↔ 8 < 9) ∧
        (8 < 9 → ∀ src2 : Buffer, modbus_get_byte_from_bits false src2 0 9 = none) ∧
        (9 ≤ 8 → modbus_get_byte_from_bits false (fun _ => 1) 0 9
          = some (modbus_get_byte_from_bits_loop (fun _ => 1) 0 9 0 0)) ∧
        modbus_get_byte_from_bits false (fun _ => 1) 0 8
          = some (modbus_get_byte_from_bits_loop (fun _ => 1) 0 8 0 0)) :=
  ⟨by decide, get_byte_from_bits_assert (fun _ => 1) 0 9 (by decide)⟩

/-! ## The claims on floats and doubles, continued -/

/-- The two registers stored by `modbus_set_float`. -/
theorem set_float_cells (f : Nat) (dest : Buffer) :
    modbus_set_float f dest 0 = u16 (u32 f) ∧
      modbus_set_float f dest 1 = u16 (u32 f >>> 16) := by
  simp only [modbus_set_float, store_same, store_other _ 1 _ 0 (by decide), and_self]

/-- The two registers stored by `modbus_set_float_dcba`. -/
theorem set_float_dcba_cells (f : Nat) (dest : Buffer) :
    modbus_set_float_dcba f dest 0 = u16 (bswap_32 (u32 f)) ∧
      modbus_set_float_dcba f dest 1 = u16 (bswap_32 (u32 f) >>> 16) := by
  simp only [modbus_set_float_dcba, store_same, store_other _ 1 _ 0 (by decide), and_self]

/-- The integer that the float decoders assemble from two 16-bit registers. -/
theorem get_float_assemble (r : Buffer) (h0 : r 0 < 2 ^ 16) (h1 : r 1 < 2 ^ 16) :
    u32 (u32 (load16 r 1 <<< 16) + load16 r 0) = r 1 * 2 ^ 16 + r 0 := by
  simp only [load16, u16, u32, Nat.shiftLeft_eq, Nat.mod_eq_of_lt h0, Nat.mod_eq_of_lt h1]
  omega

/-- C15: for every 64-bit pattern `d`, registers 0 and 1 written by
`modbus_set_double` are the pair written by `modbus_set_float` for the low 32-bit
half of `d`, and registers 2 and 3 are the pair written for the high half. -/
theorem set_double_as_two_floats (d : Nat) (dest destLo destHi : Buffer) (hd : d < 2 ^ 64) :
    modbus_set_double d dest 0 = modbus_set_float (d % 2 ^ 32) destLo 0 ∧
      modbus_set_double d dest 1 = modbus_set_float (d % 2 ^ 32) destLo 1 ∧
      modbus_set_double d dest 2 = modbus_set_float (d / 2 ^ 32) destHi 0 ∧
      modbus_set_double d dest 3 = modbus_set_float (d / 2 ^ 32) destHi 1 := by
  have hu : u64 d = d := Nat.mod_eq_of_lt hd
  rw [(set_float_cells (d % 2 ^ 32) destLo).1, (set_float_cells (d % 2 ^ 32) destLo).2,
    (set_float_cells (d / 2 ^ 32) destHi).1, (set_float_cells (d / 2 ^ 32) destHi).2]
  simp only [modbus_set_double, hu, store_same, store_other _ 3 _ 2 (by decide),
    store_other _ 3 _ 1 (by decide), store_other _ 3 _ 0 (by decide),
    store_other _ 2 _ 1 (by decide), store_other _ 2 _ 0 (by decide),
    store_other _ 1 _ 0 (by decide), u16, u32, Nat.shiftRight_eq_div_pow]
  refine ⟨?_, ?_, ?_, ?_⟩ <;> omega

/-- Instance of C15 at the pattern `0x400921FB54442D18` of the double nearest to pi. -/
theorem set_double_as_two_floats_witness :
    0x400921FB54442D18 < 2 ^ 64 ∧
      (modbus_set_double 0x400921FB54442D18 (fun _ => 0) 0
          = modbus_set_float (0x400921FB54442D18 % 2 ^ 32) (fun _ => 1) 0 ∧
        modbus_set_double 0x400921FB54442D18 (fun _ => 0) 1
          = modbus_set_float (0x400921FB54442D18 % 2 ^ 32) (fun _ => 1) 1 ∧
        modbus_set_double 0x400921FB54442D18 (fun _ => 0) 2
          = modbus_set_float (0x400921FB54442D18 / 2 ^ 32) (fun _ => 2) 0 ∧
        modbus_set_double 0x400921FB54442D18 (fun _ => 0) 3
          = modbus_set_float (0x400921FB54442D18 / 2 ^ 32) (fun _ => 2) 1) :=
  ⟨by decide,
    set_double_as_two_floats 0x400921FB54442D18 (fun _ => 0) (fun _ => 1) (fun _ => 2)
      (by decide)⟩

/-- C16: for every pair of 16-bit registers `r`, encoding the value decoded from `r`
writes `r` back, with `modbus_get_float`/`modbus_set_float` and with
`modbus_get_float_dcba`/`modbus_set_float_dcba`. -/
theorem float_registers_roundtrip (r dest : Buffer) (h0 : r 0 < 2 ^ 16) (h1 : r 1 < 2 ^ 16) :
    (modbus_set_float (modbus_get_float r) dest 0 = r 0 ∧
        modbus_set_float (modbus_get_float r) dest 1 = r 1) ∧
      (modbus_set_float_dcba (modbus_get_float_dcba r) dest 0 = r 0 ∧
        modbus_set_float_dcba (modbus_get_float_dcba r) dest 1 = r 1) := by
  have hi := get_float_assemble r h0 h1
  have hlt : r 1 * 2 ^ 16 + r 0 < 2 ^ 32 := by omega
  have hu : u32 (r 1 * 2 ^ 16 + r 0) = r 1 * 2 ^ 16 + r 0 := Nat.mod_eq_of_lt hlt
  have hlo : u16 (r 1 * 2 ^ 16 + r 0) = r 0 := by unfold u16; omega
  have hhi : u16 ((r 1 * 2 ^ 16 + r 0) >>> 16) = r 1 := by
    rw [Nat.shiftRight_eq_div_pow]; unfold u16; omega
  have hg : modbus_get_float r = r 1 * 2 ^ 16 + r 0 := by
    simp only [modbus_get_float, hi]
  have hgd : modbus_get_float_dcba r = bswap_32 (r 1 * 2 ^ 16 + r 0) := by
    simp only [modbus_get_float_dcba, hi]
  have hub : u32 (bswap_32 (r 1 * 2 ^ 16 + r 0)) = bswap_32 (r 1 * 2 ^ 16 + r 0) :=
    Nat.mod_eq_of_lt (bswap_32_lt _)
  refine ⟨⟨?_, ?_⟩, ?_, ?_⟩
  · rw [(set_float_cells _ dest).1, hg, hu, hlo]
  · rw [(set_float_cells _ dest).2, hg, hu, hhi]
  · rw [(set_float_dcba_cells _ dest).1, hgd, hub, bswap_32_bswap_32 _ hlt, hlo]
  · rw [(set_float_dcba_cells _ dest).2, hgd, hub, bswap_32_bswap_32 _ hlt, hhi]

/-- Instance of C16 at the registers `[0x803F, 0x0000]`. -/
theorem float_registers_roundtrip_witness :
    ((fun j => if j = 0 then 0x803F else 0 : Buffer) 0 < 2 ^ 16 ∧
        (fun j => if j = 0 then 0x803F else 0 : Buffer) 1 < 2 ^ 16) ∧
      ((modbus_set_float (modbus_get_float (fun j => if j = 0 then 0x803F else 0))
            (fun _ => 5) 0 = (fun j => if j = 0 then 0x803F else 0 : Buffer) 0 ∧
          modbus_set_float (modbus_get_float (fun j => if j = 0 then 0x803F else 0))
            (fun _ => 5) 1 = (fun j => if j = 0 then 0x803F else 0 : Buffer) 1) ∧
        (modbus_set_float_dcba (modbus_get_float_dcba (fun j => if j = 0 then 0x803F else 0))
            (fun _ => 5) 0 = (fun j => if j = 0 then 0x803F else 0 : Buffer) 0 ∧
          modbus_set_float_dcba (modbus_get_float_dcba (fun j => if j = 0 then 0x803F else 0))
            (fun _ => 5) 1 = (fun j => if j = 0 then 0x803F else 0 : Buffer) 1)) :=
  ⟨⟨by decide, by decide⟩,
    float_registers_roundtrip (fun j => if j = 0 then 0x803F else 0) (fun _ => 5) (by decide)
      (by decide)⟩

/-- C18: for every 32-bit pattern `f`, if `modbus_set_float` writes `[a0, a1]` and
`modbus_set_float_dcba` writes `[d0, d1]`, then `d0 = bswap_16(a1)` and
`d1 = bswap_16(a0)`. -/
theorem set_float_dcba_as_swapped (f : Nat) (dest destA : Buffer) (hf : f < 2 ^ 32) :
    modbus_set_float_dcba f dest 0 = bswap_16 (modbus_set_float f destA 1) ∧
      modbus_set_float_dcba f dest 1 = bswap_16 (modbus_set_float f destA 0) := by
  have hu : u32 f = f := Nat.mod_eq_of_lt hf
  rw [(set_float_dcba_cells f dest).1, (set_float_dcba_cells f dest).2,
    (set_float_cells f destA).1, (set_float_cells f destA).2, hu]
  obtain ⟨a, b, c, d, ha, hb, hc, hd, rfl⟩ := bytes32 f hf
  have hlo : u16 (a + 256 * b + 65536 * c + 16777216 * d) = a + 256 * b := by
    unfold u16; omega
  have hhi : u16 ((a + 256 * b + 65536 * c + 16777216 * d) >>> 16) = c + 256 * d := by
    have hq : (a + 256 * b + 65536 * c + 16777216 * d) / 2 ^ 16 = c + 256 * d := by omega
    rw [Nat.shiftRight_eq_div_pow, hq]; unfold u16; omega
  have hslo : u16 (d + 256 * c + 65536 * b + 16777216 * a) = d + 256 * c := by
    unfold u16; omega
  have hshi : u16 ((d + 256 * c + 65536 * b + 16777216 * a) >>> 16) = b + 256 * a := by
    have hq : (d + 256 * c + 65536 * b + 16777216 * a) / 2 ^ 16 = b + 256 * a := by omega
    rw [Nat.shiftRight_eq_div_pow, hq]; unfold u16; omega
  rw [bswap_32_bytes a b c d ha hb hc hd, hlo, hhi, hslo, hshi,
    bswap_16_bytes c d hc hd, bswap_16_bytes a b ha hb]
  exact ⟨rfl, rfl⟩

/-- Instance of C18 at the pattern of `1.0`, `0x3F800000`. -/
theorem set_float_dcba_as_swapped_witness :
    0x3F800000 < 2 ^ 32 ∧
      (modbus_set_float_dcba 0x3F800000 (fun _ => 0) 0
          = bswap_16 (modbus_set_float 0x3F800000 (fun _ => 1) 1) ∧
        modbus_set_float_dcba 0x3F800000 (fun _ => 0) 1
          = bswap_16 (modbus_set_float 0x3F800000 (fun _ => 1) 0)) :=
  ⟨by decide, set_float_dcba_as_swapped 0x3F800000 (fun _ => 0) (fun _ => 1) (by decide)⟩

/-- Byte-swapping a 16-bit value placed in the top 16 bits of a 64-bit word brings
it, byte-swapped, to the bottom 16 bits. -/
theorem bswap_64_shl48 (v : Nat) (hv : v < 2 ^ 16) : bswap_64 (u64 (v <<< 48)) = bswap_16 v := by
  have hg : v % 256 < 256 := Nat.mod_lt _ (by decide)
  have hh : v / 256 < 256 := by omega
  have hz : (0 : Nat) < 256 := by decide
  have hv2 : v = v % 256 + 256 * (v / 256) := by omega
  have hform : u64 (v <<< 48) = 0 + 256 * 0 + 65536 * 0 + 16777216 * 0
      + 2 ^ 32 * (0 + 256 * 0 + 65536 * (v % 256) + 16777216 * (v / 256)) := by
    rw [Nat.shiftLeft_eq, u64]
    omega
  rw [hform, bswap_64_bytes 0 0 0 0 0 0 (v % 256) (v / 256) hz hz hz hz hz hz hg hh]
  conv => rhs; rw [hv2]
  rw [bswap_16_bytes _ _ hg hh]
  omega

theorem bswap_16_lt (x : Nat) : bswap_16 x < 2 ^ 16 := by
  unfold bswap_16 u16; exact Nat.mod_lt _ (by norm_num)

/-- The local `i` of `modbus_get_double_dcba` in terms of the registers read. -/
theorem get_double_dcba_i_eq (src : Buffer) :
    modbus_get_double_dcba_i src
      = (bswap_16 (load16 src 3) + (load16 src 1 <<< 16) + load16 src 0) % 2 ^ 32 := by
  have h3 : load16 src 3 < 2 ^ 16 := Nat.mod_lt _ (by norm_num)
  have h2 : load16 src 2 < 2 ^ 16 := Nat.mod_lt _ (by norm_num)
  have h1 : load16 src 1 < 2 ^ 16 := Nat.mod_lt _ (by norm_num)
  have h0 : load16 src 0 < 2 ^ 16 := Nat.mod_lt _ (by norm_num)
  have hb := bswap_16_lt (load16 src 3)
  unfold modbus_get_double_dcba_i
  simp only [bswap_64_shl48 _ h3]
  generalize bswap_16 (load16 src 3) = B at hb ⊢
  generalize load16 src 2 = v2 at h2 ⊢
  generalize load16 src 1 = v3 at h1 ⊢
  generalize load16 src 0 = v4 at h0 ⊢
  simp only [u32, u64, Nat.shiftLeft_eq]
  omega

/-- C20: for every four 16-bit registers `r`, the `uint32_t i` assembled by
`modbus_get_double_dcba` is `(bswap_16(r[3]) + (r[1] << 16) + r[0]) mod 2 ^ 32`, and
it stays the same when `r[2]` is replaced by any other value. -/
theorem get_double_dcba_assembled (r : Buffer) (x : Nat) (hr : ∀ k, k < 4 → r k < 2 ^ 16) :
    modbus_get_double_dcba_i r = (bswap_16 (r 3) + (r 1 <<< 16) + r 0) % 2 ^ 32 ∧
      modbus_get_double_dcba_i (store r 2 x) = modbus_get_double_dcba_i r := by
  have hl : ∀ k, k < 4 → load16 r k = r k := fun k hk => Nat.mod_eq_of_lt (hr k hk)
  constructor
  · rw [get_double_dcba_i_eq, hl 3 (by decide), hl 1 (by decide), hl 0 (by decide)]
  · rw [get_double_dcba_i_eq, get_double_dcba_i_eq]
    simp only [load16, store_other _ 2 _ 3 (by decide), store_other _ 2 _ 1 (by decide),
      store_other _ 2 _ 0 (by decide)]

/-- Instance of C20 at the registers `[0x1234, 0x5678, 0x9ABC, 0xDEF0]`, with `r[2]`
replaced by `0`. -/
theorem get_double_dcba_assembled_witness :
    (∀ k, k < 4 → (fun j => [0x1234, 0x5678, 0x9ABC, 0xDEF0].getD j 0 : Buffer) k < 2 ^ 16) ∧
      (modbus_get_double_dcba_i (fun j => [0x1234, 0x5678, 0x9ABC, 0xDEF0].getD j 0)
          = (bswap_16 ((fun j => [0x1234, 0x5678, 0x9ABC, 0xDEF0].getD j 0 : Buffer) 3)
              + ((fun j => [0x1234, 0x5678, 0x9ABC, 0xDEF0].getD j 0 : Buffer) 1 <<< 16)
              + (fun j => [0x1234, 0x5678, 0x9ABC, 0xDEF0].getD j 0 : Buffer) 0) % 2 ^ 32 ∧
        modbus_get_double_dcba_i
            (store (fun j => [0x1234, 0x5678, 0x9ABC, 0xDEF0].getD j 0) 2 0)
          = modbus_get_double_dcba_i (fun j => [0x1234, 0x5678, 0x9ABC, 0xDEF0].getD j 0)) :=
  ⟨by decide,
    get_double_dcba_assembled (fun j => [0x1234, 0x5678, 0x9ABC, 0xDEF0].getD j 0) 0
      (by decide)⟩

/-- Every cell after the calls of `set_bits_from_byte_each`, when every offset of
every call stays within `INT_MAX`. -/
theorem set_bits_from_byte_each_cell (dest s : Buffer) (index : Nat) :
    ∀ (m j : Nat), index + 8 * m ≤ 2 ^ 31 →
      set_bits_from_byte_each dest index s m j
        = if index ≤ j ∧ j < index + 8 * m then
            bitOf (load8 s ((j - index) / 8)) ((j - index) % 8)
          else dest j := by
  intro m
  induction m with
  | zero =>
    intro j _
    have h : ¬ (index ≤ j ∧ j < index + 8 * 0) := by omega
    simp only [set_bits_from_byte_each, h, if_false]
  | succ m ih =>
    intro j hmax
    rw [set_bits_from_byte_each, set_bits_from_byte_cell _ _ _ _ (by omega),
      ih j (by omega)]
    by_cases hc : index + 8 * m ≤ j ∧ j < index + 8 * m + 8
    · have h2 : index ≤ j ∧ j < index + 8 * (m + 1) := by omega
      have hq : (j - index) / 8 = m := by omega
      have hr : (j - index) % 8 = j - (index + 8 * m) := by omega
      rw [if_pos hc, if_pos h2, hq, hr, load8]
    · rw [if_neg hc]
      by_cases h1 : index ≤ j ∧ j < index + 8 * m
      · have h2 : index ≤ j ∧ j < index + 8 * (m + 1) := by omega
        rw [if_pos h1, if_pos h2]
      · have h2 : ¬ (index ≤ j ∧ j < index + 8 * (m + 1)) := by omega
        rw [if_neg h1, if_neg h2]

/-- C19 as stated fails: at `index = 2147483644` with the byte `0xFF`,
`modbus_set_bits_from_bytes` (whose `i` is an `unsigned int`) writes `1` to the cell
`dest[2147483648]`, and `modbus_set_bits_from_byte` (whose `index+i` is an `int`
sum that wraps around beyond `INT_MAX`) leaves its `0` there: the two calls do not
leave `dest` in the same state. -/
theorem set_bits_from_bytes_as_bytes_overflow :
    2147483644 < 2 ^ 31 ∧
      modbus_set_bits_from_bytes (fun _ => 0) 2147483644 8 (fun _ => 0xFF) 2147483648 = 1 ∧
      modbus_set_bits_from_byte (fun _ => 0) 2147483644 ((fun _ => 0xFF : Buffer) 0) 2147483648
        = 0 ∧
      modbus_set_bits_from_bytes (fun _ => 0) 2147483644 8 (fun _ => 0xFF)
        ≠ modbus_set_bits_from_byte (fun _ => 0) 2147483644 ((fun _ => 0xFF : Buffer) 0) := by
  refine ⟨by decide, by decide, by decide, fun h => ?_⟩
  have hcell := congrFun h 2147483648
  revert hcell
  decide

/-- C19, amended: for every index with `index ≤ INT_MAX - 7`,
`modbus_set_bits_from_bytes(dest, index, 8, [v])` leaves `dest` in the state that
`modbus_set_bits_from_byte(dest, index, v)` leaves it in, and for every `m` with
`index + 8*m ≤ INT_MAX + 1`, `modbus_set_bits_from_bytes(dest, index, 8*m, s)`
leaves it in the state reached by the calls
`modbus_set_bits_from_byte(dest, index + 8*j, s[j])` for `j = 0..m-1`. -/
theorem set_bits_from_bytes_as_bytes (dest s : Buffer) (index m : Nat)
    (hidx : index + 8 ≤ 2 ^ 31) (hm : index + 8 * m ≤ 2 ^ 31) :
    modbus_set_bits_from_bytes dest index 8 s = modbus_set_bits_from_byte dest index (s 0) ∧
      modbus_set_bits_from_bytes dest index (8 * m) s = set_bits_from_byte_each dest index s m := by
  have hall : ∀ k, index + 8 * k ≤ 2 ^ 31 →
      modbus_set_bits_from_bytes dest index (8 * k) s = set_bits_from_byte_each dest index s k := by
    intro k hk
    funext j
    rw [set_bits_from_bytes_cell, set_bits_from_bytes_count index (8 * k) (by omega),
      set_bits_from_byte_each_cell dest s index k j hk]
  refine ⟨?_, hall m hm⟩
  have h1 := hall 1 (by omega)
  rw [Nat.mul_one] at h1
  rw [h1]
  simp only [set_bits_from_byte_each, Nat.mul_zero, Nat.add_zero]

/-- Instance of amended C19: two bytes `0xA5, 0x3C` written at index `3`. -/
theorem set_bits_from_bytes_as_bytes_witness :
    (3 + 8 ≤ 2 ^ 31 ∧ 3 + 8 * 2 ≤ 2 ^ 31) ∧
      (modbus_set_bits_from_bytes (fun _ => 0) 3 8 (fun j => if j = 0 then 0xA5 else 0x3C)
          = modbus_set_bits_from_byte (fun _ => 0) 3
              ((fun j => if j = 0 then 0xA5 else 0x3C : Buffer) 0) ∧
        modbus_set_bits_from_bytes (fun _ => 0) 3 (8 * 2) (fun j => if j = 0 then 0xA5 else 0x3C)
          = set_bits_from_byte_each (fun _ => 0) 3 (fun j => if j = 0 then 0xA5 else 0x3C) 2) :=
  ⟨⟨by decide, by decide⟩,
    set_bits_from_bytes_as_bytes (fun _ => 0) (fun j => if j = 0 then 0xA5 else 0x3C) 3 2
      (by decide) (by decide)⟩

end Modbus
